import Mathlib

/-!
Shallow embedding of the pragmastat Python core (src/py/pragmastat) and proofs
about its estimators, margin engine and assumption-validation pipeline.

Modelling conventions:
* Python floats are modelled as exact numbers in a linear ordered field
  (instantiated at `ℚ` for computation and at `ℝ` where `log`/`exp`/`sqrt`
  are required).  Non-finite floats (NaN, ±Inf) are modelled by `none` in
  `Option`-valued sample entries; a NaN misrate is modelled by a `none`
  misrate argument.
* Python exceptions (`AssumptionError`) are modelled by `Except Violation`.
* Loops are embedded as structural or well-founded recursion; the one
  floating-point convergence loop (`_find_exact_quantile`) gets an explicit
  fuel argument that dominates its iteration count over the float domain.
-/

namespace Pragmastat

/-- Assumption identifiers in canonical priority order (assumptions.py, `AssumptionId`). -/
inductive AssumptionId where
  | validity
  | domain
  | positivity
  | sparity
  deriving DecidableEq, Repr

/-- Subject of a violation (assumptions.py, `Subject`). -/
inductive Subject where
  | x
  | y
  | misrate
  deriving DecidableEq, Repr

/-- A specific assumption violation (assumptions.py, `Violation`). -/
structure Violation where
  id : AssumptionId
  subject : Subject
  deriving DecidableEq, Repr

/- Batteries marks the arithmetic core of `Rat` as irreducible, which blocks
kernel evaluation of concrete rational expressions; restore the default
reducibility inside this development so that concrete instances can be settled
by `decide`/`rfl`. -/
attribute [local semireducible] Rat.mul Rat.inv Rat.add Rat.sub

section Core

variable {α : Type} [LinearOrderedField α]

/-- Embedding of assumptions.py `check_validity`: a sample is valid iff it is
non-empty and every value is finite (`some`). -/
def checkValidity (v : List (Option α)) (s : Subject) : Except Violation Unit :=
  if v.isEmpty then .error ⟨.validity, s⟩
  else if !(v.all Option.isSome) then .error ⟨.validity, s⟩
  else .ok ()

/-- Embedding of the numpy test `np.any(values <= 0)` used by `check_positivity`
and `log` in assumptions.py.  A NaN entry (`none`) compares false against `<= 0`,
exactly as Python's NaN does. -/
def anyNonPos (v : List (Option α)) : Bool :=
  v.any fun o => match o with
    | some a => decide (a ≤ 0)
    | none => false

/-- Embedding of assumptions.py `check_positivity`. -/
def checkPositivity (v : List (Option α)) (s : Subject) : Except Violation Unit :=
  if anyNonPos v then .error ⟨.positivity, s⟩ else .ok ()

/-- The finite values of a sample, used once validity has been established. -/
def vals (x : List (Option α)) : List α := x.reduceOption

/-- Embedding of the shared misrate gate `math.isnan(misrate) or misrate < 0 or
misrate > 1` used by every `*_bounds` estimator; `none` models NaN. -/
def getMisrate (m : Option ℚ) : Except Violation ℚ :=
  match m with
  | none => .error ⟨.domain, .misrate⟩
  | some q => if q < 0 ∨ 1 < q then .error ⟨.domain, .misrate⟩ else .ok q

/-- Sorting as used by the Python ports (`sorted(...)`). -/
def sortList (l : List α) : List α := l.insertionSort (· ≤ ·)

/-- Median of an already sorted list; the empty-input convention is 0.
Used by the spec-modelled fast kernels below. -/
def medianOfSorted (s : List α) : α :=
  if s.length = 0 then 0
  else if s.length % 2 = 1 then s.getD (s.length / 2) 0
  else (s.getD (s.length / 2 - 1) 0 + s.getD (s.length / 2) 0) / 2

/-- Median of an arbitrary list. -/
def medianList (l : List α) : α := medianOfSorted (sortList l)

/-- All pairwise absolute differences `|x[i] - x[j]|` with `i < j`. -/
def pairwiseAbsDiffs : List α → List α
  | [] => []
  | a :: t => (t.map fun b => |a - b|) ++ pairwiseAbsDiffs t

/-- Modelled from the spec: fast_spread.py is not under src/.  Per the spec,
`_fast_spread` computes the median of all pairwise absolute differences
`|x[i]-x[j]|`, `i<j` (Shamos dispersion estimator); for a sample with fewer
than two values there are no pairs and the result is 0. -/
def fastSpread (x : List α) : α := medianList (pairwiseAbsDiffs x)

/-- All pairwise averages `(x[i] + x[j]) / 2` with `i ≤ j` (self-pairs included). -/
def pairwiseAvgs : List α → List α
  | [] => []
  | a :: t => ((a :: t).map fun b => (a + b) / 2) ++ pairwiseAvgs t

/-- Modelled from the spec: fast_center.py is not under src/.  Per the spec,
`_fast_center` computes the median of all pairwise averages `(x[i]+x[j])/2`
for `i ≤ j` (Hodges-Lehmann location estimator). -/
def fastCenter (x : List α) : α := medianList (pairwiseAvgs x)

/-- All pairwise differences `x[i] - y[j]`. -/
def pairwiseDiffs (xs ys : List α) : List α :=
  xs.flatMap fun a => ys.map fun b => a - b

/-- Index of the quantile of probability `p` among `len` sorted values
(rounding convention; the call sites of `_fast_shift` always use exact grid
probabilities `k / (len - 1)`, for which every rounding convention agrees). -/
def quantIndex (p : ℚ) (len : ℕ) : ℕ :=
  (⌊p * ((len : ℚ) - 1) + 1 / 2⌋).toNat

/-- Modelled from the spec: fast_shift.py is not under src/.  Per the spec,
`_fast_shift` computes, for each requested probability, the corresponding
quantile of all pairwise differences `x[i] - y[j]`. -/
def fastShift (xs ys : List α) (ps : List ℚ) : List α :=
  let diffs := sortList (pairwiseDiffs xs ys)
  ps.map fun p => diffs.getD (quantIndex p diffs.length) 0

/-- Embedding of min_misrate.py `min_achievable_misrate_one_sample`:
`2^(1-n)`, with a domain violation on subject x for non-positive `n`. -/
def minAchievableMisrateOneSample (n : ℤ) : Except Violation ℚ :=
  if n ≤ 0 then .error ⟨.domain, .x⟩
  else .ok ((2 : ℚ) ^ (1 - n))

/-- Embedding of min_misrate.py `min_achievable_misrate_two_sample`:
`2 / C(n+m, n)`, with domain violations on subjects x and y for non-positive
`n` and `m` respectively. -/
def minAchievableMisrateTwoSample (n m : ℤ) : Except Violation ℚ :=
  if n ≤ 0 then .error ⟨.domain, .x⟩
  else if m ≤ 0 then .error ⟨.domain, .y⟩
  else .ok (2 / (Nat.choose (n + m).toNat n.toNat : ℚ))

end Core

/-! ### Signed-rank margin (signed_rank_margin.py) -/

/-- Maximum achievable signed-rank sum `n * (n + 1) // 2`. -/
def srMaxW (n : ℕ) : ℕ := n * (n + 1) / 2

/-- Initial DP array of `_signed_rank_margin_exact_raw`: `count[0] = 1`, all
other entries 0 (represented as a function on indices). -/
def srInit : ℕ → ℕ := fun w => if w = 0 then 1 else 0

/-- One pass of the DP inner loop of `_signed_rank_margin_exact_raw` for rank
`i`: `count[w] += count[w - i]` for `w` from `min(i*(i+1)//2, max_w)` down to
`i`.  Because the source iterates `w` downward, every read `count[w - i]`
happens before the (strictly later, lower-indexed) write to that cell, so the
whole pass reads only pre-pass values; it is therefore exactly this
simultaneous update. -/
def srPass (i maxWi : ℕ) (c : ℕ → ℕ) : ℕ → ℕ := fun w =>
  if i ≤ w ∧ w ≤ maxWi then c w + c (w - i) else c w

/-- The DP counts of `_signed_rank_margin_exact_raw` after processing ranks
`1..n`. -/
def srCounts (n : ℕ) : ℕ → ℕ :=
  (List.range n).foldl
    (fun c i => srPass (i + 1) (min ((i + 1) * (i + 2) / 2) (srMaxW n)) c) srInit

/-- Structural restatement of `srCounts` used in the correctness proof: pass
`n + 1` always has `maxWi = srMaxW (n + 1)`, because `(i+1)(i+2)/2 ≤ srMaxW n`
for every `i < n` makes the `min` in `srCounts` redundant. -/
def srCountsSimple : ℕ → ℕ → ℕ
  | 0 => srInit
  | n + 1 => srPass (n + 1) (srMaxW (n + 1)) (srCountsSimple n)

/-- The exact Wilcoxon signed-rank distribution, written independently of the
DP: the number of subsets of ranks `{1, ..., n}` whose sum is `w`.  (Element
`j` of `Finset.range n` stands for rank `j + 1`.) -/
def srSubsetCount (n w : ℕ) : ℕ :=
  ((Finset.range n).powerset.filter fun S => S.sum (fun j => j + 1) = w).card

/-- CDF of the signed-rank distribution as accumulated by the scan loop of
`_signed_rank_margin_exact_raw`: `cumulative / total` after adding
`count[0..w]`, with `total = 2^n`. -/
def srCDF (n w : ℕ) : ℚ :=
  (∑ v ∈ Finset.range (w + 1), (srCounts n v : ℚ)) / 2 ^ n

/-- Reference CDF built from the subset counts (the mathematical signed-rank
distribution). -/
def srSubsetCDF (n w : ℕ) : ℚ :=
  (∑ v ∈ Finset.range (w + 1), (srSubsetCount n v : ℚ)) / 2 ^ n

/-- Linear scan returning the first `w` (starting at `cur`, at most `fuel`
steps) satisfying `P`, and `fallback` when none is found; this is the shape of
the `for w in range(max_w + 1)` scan in `_signed_rank_margin_exact_raw`. -/
def firstSat (P : ℕ → Bool) (fallback : ℕ) : ℕ → ℕ → ℕ
  | _, 0 => fallback
  | cur, fuel + 1 => if P cur then cur else firstSat P fallback (cur + 1) fuel

/-- Embedding of `_signed_rank_margin_exact_raw`: scan `w = 0..max_w` and
return the first `w` with `cdf >= p`, defaulting to `max_w`. -/
def signedRankMarginExactRaw (n : ℕ) (p : ℚ) : ℕ :=
  firstSat (fun w => decide (p ≤ srCDF n w)) (srMaxW n) 0 (srMaxW n + 1)

/-- Embedding of `_signed_rank_margin_exact`. -/
def signedRankMarginExact (n : ℕ) (misrate : ℚ) : ℕ :=
  signedRankMarginExactRaw n (misrate / 2) * 2

/-- Embedding of gauss_cdf.py `gauss_cdf` (ACM Algorithm 209 polynomial
approximation of the standard normal CDF). -/
noncomputable def gaussCdf (x : ℝ) : ℝ :=
  let z :=
    if |x| < 1e-9 then (0 : ℝ)
    else
      let y := |x| / 2
      if 3 ≤ y then (1 : ℝ)
      else if y < 1 then
        let w := y * y
        (((((((((0.000124818987 * w - 0.001075204047) * w + 0.005198775019) * w
          - 0.019198292004) * w + 0.059054035642) * w - 0.151968751364) * w
          + 0.319152932694) * w - 0.531923007300) * w + 0.797884560593) * y * 2)
      else
        let y2 := y - 2
        ((((((((((((((-0.000045255659 * y2 + 0.000152529290) * y2
          - 0.000019538132) * y2 - 0.000676904986) * y2 + 0.001390604284) * y2
          - 0.000794620820) * y2 - 0.002034254874) * y2 + 0.006549791214) * y2
          - 0.010557625006) * y2 + 0.011630447319) * y2 - 0.009279453341) * y2
          + 0.005353579108) * y2 - 0.002141268741) * y2 + 0.000535310849) * y2
          + 0.999936657524)
  if 0 < x then (z + 1) / 2 else (1 - z) / 2

/-- Embedding of `_signed_rank_edgeworth_cdf`: Edgeworth expansion of the
Wilcoxon signed-rank CDF with a kurtosis correction term and the `+0.5`
continuity correction, clamped to `[0, 1]`. -/
noncomputable def srEdgeworthCdf (n w : ℕ) : ℝ :=
  let nf : ℝ := n
  let mu := nf * (nf + 1) / 4
  let sigma2 := nf * (nf + 1) * (2 * nf + 1) / 24
  let sigma := Real.sqrt sigma2
  let z := ((w : ℝ) - mu + 0.5) / sigma
  let phi := Real.exp (-z * z / 2) / Real.sqrt (2 * Real.pi)
  let bigPhi := gaussCdf z
  let kappa4 := -nf * (nf + 1) * (2 * nf + 1) * (3 * nf * nf + 3 * nf - 1) / 240
  let e3 := kappa4 / (24 * sigma2 * sigma2)
  let z3 := z * z * z
  let f3 := -phi * (z3 - 3 * z)
  max 0 (min 1 (bigPhi + e3 * f3))

/-- The `while a < b - 1` bisection loop of `_signed_rank_margin_approx_raw`
(integer binary search on `w` driven by the Edgeworth CDF). -/
noncomputable def srApproxLoop (n : ℕ) (p : ℝ) (a b : ℕ) : ℕ × ℕ :=
  if h : a + 1 < b then
    let c := (a + b) / 2
    if srEdgeworthCdf n c < p then srApproxLoop n p c b else srApproxLoop n p a c
  else (a, b)
termination_by b - a
decreasing_by
  · omega
  · omega

/-- Embedding of `_signed_rank_margin_approx_raw`. -/
noncomputable def signedRankMarginApproxRaw (n : ℕ) (p : ℝ) : ℕ :=
  let ab := srApproxLoop n p 0 (srMaxW n)
  if srEdgeworthCdf n ab.2 < p then ab.2 else ab.1

/-- Embedding of `_signed_rank_margin_approx`. -/
noncomputable def signedRankMarginApprox (n : ℕ) (misrate : ℚ) : ℕ :=
  signedRankMarginApproxRaw n ((misrate : ℝ) / 2) * 2

/-- Maximum `n` for the exact signed-rank computation (`2^n` must fit in a
64-bit integer). -/
def SIGNED_RANK_MAX_EXACT_SIZE : ℤ := 63

/-- Embedding of signed_rank_margin.py `signed_rank_margin`.  The misrate is a
`ℚ`; the source's `math.isnan` guard concerns the NaN float, which has no
counterpart in the exact number model of the margin engine. -/
noncomputable def signedRankMargin (n : ℤ) (misrate : ℚ) : Except Violation ℕ :=
  if n ≤ 0 then .error ⟨.domain, .x⟩
  else if misrate < 0 ∨ 1 < misrate then .error ⟨.domain, .misrate⟩
  else
    match minAchievableMisrateOneSample n with
    | .error e => .error e
    | .ok minMis =>
      if misrate < minMis then .error ⟨.domain, .misrate⟩
      else if n ≤ SIGNED_RANK_MAX_EXACT_SIZE then
        .ok (signedRankMarginExact n.toNat misrate)
      else .ok (signedRankMarginApprox n.toNat misrate)

/-- Written from the claim's words, for comparison with the source embedding:
the largest rank-sum `w` whose signed-rank CDF is at most `p` (0 when no `w`
qualifies; the CDF is taken on the exact subset-count distribution). -/
def srLargestWithCdfLE (n : ℕ) (p : ℚ) : ℕ :=
  ((List.range (srMaxW n + 1)).filter fun w => decide (srSubsetCDF n w ≤ p)).foldl max 0

/-! ### Pairwise margin (Mann-Whitney), modelled from the spec -/

/-- Modelled from the spec: pairwise_margin.py is not under src/.  Count of
arrangements of the Mann-Whitney U null distribution: `mwCount n m u` is the
number of interleavings of samples of sizes `n` and `m` with U-statistic `u`,
via the standard recurrence `N(u; n, m) = N(u - m; n - 1, m) + N(u; n, m - 1)`. -/
def mwCountAux : ℕ → ℕ → ℕ → ℕ → ℕ
  | 0, _, _, u => if u = 0 then 1 else 0
  | fuel + 1, n, m, u =>
    match n, m with
    | 0, _ => if u = 0 then 1 else 0
    | _ + 1, 0 => if u = 0 then 1 else 0
    | nn + 1, mm + 1 =>
      (if mm + 1 ≤ u then mwCountAux fuel nn (mm + 1) (u - (mm + 1)) else 0)
        + mwCountAux fuel (nn + 1) mm u

/-- Entry point of the recurrence; the fuel `n + m` is exact, since every
recursive call decreases `n + m` by one. -/
def mwCount (n m u : ℕ) : ℕ := mwCountAux (n + m) n m u

/-- CDF of the Mann-Whitney U null distribution (total count is `C(n+m, n)`). -/
def mwCDF (n m u : ℕ) : ℚ :=
  (∑ v ∈ Finset.range (u + 1), (mwCount n m v : ℚ)) / (Nat.choose (n + m) n : ℚ)

/-- Modelled from the spec: pairwise_margin.py is not under src/.  Mirrors the
structure of `_signed_rank_margin_exact_raw` for the two-sample Mann-Whitney
null distribution: the first `u` with CDF at least `p`, defaulting to `n*m`. -/
def pairwiseMarginRaw (n m : ℕ) (p : ℚ) : ℕ :=
  firstSat (fun u => decide (p ≤ mwCDF n m u)) (n * m) 0 (n * m + 1)

/-- Modelled from the spec: pairwise_margin.py is not under src/.  Per the
spec, `pairwise_margin(n, m, misrate)` is the "two-sample analogue [of
signed_rank_margin] using the Mann-Whitney U null distribution", with the same
validation gates (positive sizes, misrate within `[0, 1]` and at least
`min_achievable_misrate_two_sample`). -/
def pairwiseMargin (n m : ℤ) (misrate : ℚ) : Except Violation ℕ :=
  if n ≤ 0 then .error ⟨.domain, .x⟩
  else if m ≤ 0 then .error ⟨.domain, .y⟩
  else if misrate < 0 ∨ 1 < misrate then .error ⟨.domain, .misrate⟩
  else
    match minAchievableMisrateTwoSample n m with
    | .error e => .error e
    | .ok minMis =>
      if misrate < minMis then .error ⟨.domain, .misrate⟩
      else .ok (pairwiseMarginRaw n.toNat m.toNat (misrate / 2) * 2)

/-! ### Point estimators (estimators.py) -/

section Estimators

variable {α : Type} [LinearOrderedField α]

/-- Embedding of estimators.py `center`. -/
def center (x : List (Option α)) : Except Violation α :=
  match checkValidity x .x with
  | .error e => .error e
  | .ok _ => .ok (fastCenter (vals x))

/-- Embedding of estimators.py `spread`. -/
def spread (x : List (Option α)) : Except Violation α :=
  match checkValidity x .x with
  | .error e => .error e
  | .ok _ =>
    let spreadVal := fastSpread (vals x)
    if spreadVal ≤ 0 then .error ⟨.sparity, .x⟩
    else .ok spreadVal

/-- Embedding of estimators.py `_avg_spread`. -/
def avgSpread (x y : List (Option α)) : Except Violation α :=
  match checkValidity x .x with
  | .error e => .error e
  | .ok _ =>
  match checkValidity y .y with
  | .error e => .error e
  | .ok _ =>
    let n := x.length
    let m := y.length
    let spreadX := fastSpread (vals x)
    if spreadX ≤ 0 then .error ⟨.sparity, .x⟩
    else
      let spreadY := fastSpread (vals y)
      if spreadY ≤ 0 then .error ⟨.sparity, .y⟩
      else .ok (((n : α) * spreadX + (m : α) * spreadY) / ((n : α) + (m : α)))

/-- Embedding of estimators.py `shift`. -/
def shift (x y : List (Option α)) : Except Violation α :=
  match checkValidity x .x with
  | .error e => .error e
  | .ok _ =>
  match checkValidity y .y with
  | .error e => .error e
  | .ok _ => .ok ((fastShift (vals x) (vals y) [1 / 2]).getD 0 0)

/-- Embedding of estimators.py `ratio` (over `ℝ`, since it log-transforms):
validity of x, validity of y, positivity of x, positivity of y, in the order
written in the source, then `exp(shift(log x, log y))`. -/
noncomputable def ratio (x y : List (Option ℝ)) : Except Violation ℝ :=
  match checkValidity x .x with
  | .error e => .error e
  | .ok _ =>
  match checkValidity y .y with
  | .error e => .error e
  | .ok _ =>
  match checkPositivity x .x with
  | .error e => .error e
  | .ok _ =>
  match checkPositivity y .y with
  | .error e => .error e
  | .ok _ =>
    let logX := (vals x).map Real.log
    let logY := (vals y).map Real.log
    .ok (Real.exp ((fastShift logX logY [1 / 2]).getD 0 0))

end Estimators

/-! ### Fast center quantile extraction (_fast_center_quantiles.py) -/

section FastCenterQuantiles

variable {α : Type} [LinearOrderedField α]

/-- Embedding of `RELATIVE_EPSILON = 1e-14`. -/
def relEps : α := 1 / 10 ^ 14

/-- Embedding of `_count_pairs_less_or_equal`: the number of index pairs
`i ≤ j` with `(sorted[i] + sorted[j]) / 2 <= threshold`.  The source computes
this with a monotone two-pointer scan over the sorted input; on sorted input
that scan returns exactly this count. -/
def countPairsLE (s : List α) (threshold : α) : ℕ :=
  ((Finset.range s.length ×ˢ Finset.range s.length).filter fun ij =>
    ij.1 ≤ ij.2 ∧ s.getD ij.1 0 + s.getD ij.2 0 ≤ 2 * threshold).card

/-- The `while hi - lo > RELATIVE_EPSILON * max(1, |lo|, |hi|)` bisection loop
of `_find_exact_quantile`, with an explicit fuel argument.  Each iteration
halves `hi - lo`, and over the source's binary64 domain the convergence
criterion is reached within 2100 halvings (the width-to-epsilon ratio is below
`2^2100`), so the fuel below never runs out on inputs the source accepts. -/
def centerSearchLoop (s : List α) (k : ℕ) : ℕ → α → α → α × α
  | 0, lo, hi => (lo, hi)
  | fuel + 1, lo, hi =>
    if hi - lo ≤ relEps * max 1 (max |lo| |hi|) then (lo, hi)
    else
      let mid := (lo + hi) / 2
      if countPairsLE s mid < k then centerSearchLoop s k fuel mid hi
      else centerSearchLoop s k fuel lo mid

/-- Fuel for `centerSearchLoop`; see its doc comment. -/
def centerSearchFuel : ℕ := 2100

/-- The inner `while left < right` lower-bound binary search of
`_find_exact_quantile`'s candidate-extraction phase. -/
def lowerBoundLoop (s : List α) (threshold : α) (left right : ℕ) : ℕ :=
  if _h : left < right then
    let m := (left + right) / 2
    if s.getD m 0 < threshold - relEps then lowerBoundLoop s threshold (m + 1) right
    else lowerBoundLoop s threshold left m
  else left
termination_by right - left
decreasing_by
  · omega
  · omega

/-- The candidate-extraction `for i in range(n)` loop of
`_find_exact_quantile`. -/
def buildCandidates (s : List α) (target : α) : List α :=
  (List.range s.length).foldl
    (fun acc i =>
      let threshold := 2 * target - s.getD i 0
      let left := lowerBoundLoop s threshold i s.length
      let acc1 :=
        if left < s.length ∧ i ≤ left ∧
            |s.getD left 0 - threshold| < relEps * max 1 |threshold| then
          acc ++ [(s.getD i 0 + s.getD left 0) / 2]
        else acc
      if i < left then
        let avgBefore := (s.getD i 0 + s.getD (left - 1) 0) / 2
        if avgBefore ≤ target + relEps then acc1 ++ [avgBefore] else acc1
      else acc1)
    []

/-- Embedding of `_find_exact_quantile` (the `k`-th smallest pairwise average
of a sorted sample, `k` 1-based). -/
def findExactQuantile (s : List α) (k : ℕ) : α :=
  let n := s.length
  let totalPairs := n * (n + 1) / 2
  if n = 1 then s.getD 0 0
  else if k = 1 then s.getD 0 0
  else if k = totalPairs then s.getD (n - 1) 0
  else
    let lohi := centerSearchLoop s k centerSearchFuel (s.getD 0 0) (s.getD (n - 1) 0)
    let target := (lohi.1 + lohi.2) / 2
    let candidates := buildCandidates s target
    if candidates.isEmpty then target
    else
      match (sortList candidates).find? (fun c => decide (k ≤ countPairsLE s c)) with
      | some c => c
      | none => target

/-- Embedding of `fast_center_quantile_bounds`. -/
def fastCenterQuantileBounds (s : List α) (kLo kHi : ℕ) : α × α :=
  let totalPairs := s.length * (s.length + 1) / 2
  let kLo1 := max 1 (min kLo totalPairs)
  let kHi1 := max 1 (min kHi totalPairs)
  let lower := findExactQuantile s kLo1
  let upper := findExactQuantile s kHi1
  (min lower upper, max lower upper)

end FastCenterQuantiles

/-! ### Bounds estimators (estimators.py) -/

section BoundsEstimators

variable {α : Type} [LinearOrderedField α]

/-- Embedding of estimators.py `shift_bounds`. -/
def shiftBounds (x y : List (Option α)) (misrate : Option ℚ) :
    Except Violation (α × α) :=
  match checkValidity x .x with
  | .error e => .error e
  | .ok _ =>
  match checkValidity y .y with
  | .error e => .error e
  | .ok _ =>
  match getMisrate misrate with
  | .error e => .error e
  | .ok mq =>
    let n := x.length
    let m := y.length
    match minAchievableMisrateTwoSample n m with
    | .error e => .error e
    | .ok minMis =>
      if mq < minMis then .error ⟨.domain, .misrate⟩
      else
        let xs := sortList (vals x)
        let ys := sortList (vals y)
        let total := n * m
        if total = 1 then
          let value := xs.getD 0 0 - ys.getD 0 0
          .ok (value, value)
        else
          match pairwiseMargin n m mq with
          | .error e => .error e
          | .ok margin =>
            let halfMargin := min (margin / 2) ((total - 1) / 2)
            let kLeft := halfMargin
            let kRight := (total - 1) - halfMargin
            let denominator : ℚ := ((total - 1 : ℕ) : ℚ)
            let ps : List ℚ := [(kLeft : ℚ) / denominator, (kRight : ℚ) / denominator]
            let bounds := fastShift xs ys ps
            -- min/max of the two quantiles returned by the kernel
            .ok (min (bounds.getD 0 0) (bounds.getD 1 0),
                 max (bounds.getD 0 0) (bounds.getD 1 0))

/-- Embedding of estimators.py `center_bounds`. -/
noncomputable def centerBounds (x : List (Option α)) (misrate : Option ℚ) :
    Except Violation (α × α) :=
  match checkValidity x .x with
  | .error e => .error e
  | .ok _ =>
  match getMisrate misrate with
  | .error e => .error e
  | .ok mq =>
    let n := x.length
    if n < 2 then .error ⟨.domain, .x⟩
    else
      match minAchievableMisrateOneSample n with
      | .error e => .error e
      | .ok minMis =>
        if mq < minMis then .error ⟨.domain, .misrate⟩
        else
          let totalPairs := n * (n + 1) / 2
          match signedRankMargin n mq with
          | .error e => .error e
          | .ok margin =>
            let halfMargin := min (margin / 2) ((totalPairs - 1) / 2)
            let kLeft := halfMargin + 1
            let kRight := totalPairs - halfMargin
            let sortedX := sortList (vals x)
            .ok (fastCenterQuantileBounds sortedX kLeft kRight)

/-- Embedding of estimators.py `spread_bounds`.  rng.py and the randomized
sign margin draw are not under src/: the resulting margin and the
rng-shuffled sample are taken as parameters (`margin`, `shuffled`), so every
theorem below holds for every possible RNG outcome.  When reached through
this estimator the sign-margin computation itself cannot raise, because its
validation gates are implied by the ones already passed here. -/
def spreadBounds (x : List (Option α)) (misrate : Option ℚ) (margin : ℕ)
    (shuffled : List α) : Except Violation (α × α) :=
  match checkValidity x .x with
  | .error e => .error e
  | .ok _ =>
  match getMisrate misrate with
  | .error e => .error e
  | .ok mq =>
    let n := x.length
    let m := n / 2
    match minAchievableMisrateOneSample m with
    | .error e => .error e
    | .ok minMis =>
      if mq < minMis then .error ⟨.domain, .misrate⟩
      else if n < 2 then .error ⟨.sparity, .x⟩
      else if fastSpread (vals x) ≤ 0 then .error ⟨.sparity, .x⟩
      else
        let halfMargin := min (margin / 2) ((m - 1) / 2)
        let kLeft := halfMargin + 1
        let kRight := m - halfMargin
        let diffs := sortList
          ((List.range m).map fun i => |shuffled.getD (2 * i) 0 - shuffled.getD (2 * i + 1) 0|)
        .ok (diffs.getD (kLeft - 1) 0, diffs.getD (kRight - 1) 0)

/-- Embedding of estimators.py `_avg_spread_bounds` (margins and shuffles of
the two inner `spread_bounds` calls parameterized as in `spreadBounds`). -/
def avgSpreadBounds (x y : List (Option α)) (misrate : Option ℚ)
    (marginX marginY : ℕ) (shuffledX shuffledY : List α) :
    Except Violation (α × α) :=
  match checkValidity x .x with
  | .error e => .error e
  | .ok _ =>
  match checkValidity y .y with
  | .error e => .error e
  | .ok _ =>
  match getMisrate misrate with
  | .error e => .error e
  | .ok mq =>
    let n := x.length
    let m := y.length
    if n < 2 then .error ⟨.domain, .x⟩
    else if m < 2 then .error ⟨.domain, .y⟩
    else
      let alpha := mq / 2
      match minAchievableMisrateOneSample (n / 2) with
      | .error e => .error e
      | .ok minX =>
      match minAchievableMisrateOneSample (m / 2) with
      | .error e => .error e
      | .ok minY =>
        if alpha < minX ∨ alpha < minY then .error ⟨.domain, .misrate⟩
        else if fastSpread (vals x) ≤ 0 then .error ⟨.sparity, .x⟩
        else if fastSpread (vals y) ≤ 0 then .error ⟨.sparity, .y⟩
        else
          match spreadBounds x (some alpha) marginX shuffledX with
          | .error e => .error e
          | .ok boundsX =>
          match spreadBounds y (some alpha) marginY shuffledY with
          | .error e => .error e
          | .ok boundsY =>
            let weightX := (n : α) / ((n : α) + (m : α))
            let weightY := (m : α) / ((n : α) + (m : α))
            .ok (weightX * boundsX.1 + weightY * boundsY.1,
                 weightX * boundsX.2 + weightY * boundsY.2)

end BoundsEstimators

/-! ### Disparity bounds and ratio bounds (estimators.py) -/

/-- Extended values: a field value, `⊥` for `-math.inf` or `⊤` for `math.inf`,
used to express the endpoints `disparity_bounds` can return. -/
abbrev ExtVal (α : Type) := WithBot (WithTop α)

section Disparity

variable {α : Type} [LinearOrderedField α]

/-- Coercion of a finite value into `ExtVal`. -/
def toExt (a : α) : ExtVal α := ((a : WithTop α) : ExtVal α)

/-- Embedding of the interval-division tail of estimators.py
`disparity_bounds` (the case analysis on the shift interval `[ls, us]` and the
avg-spread interval `[la, ua]`, source lines 578-606). -/
def disparityIntervalDiv (ls us la ua : α) : ExtVal α × ExtVal α :=
  if 0 < la then
    let r1 := ls / la
    let r2 := ls / ua
    let r3 := us / la
    let r4 := us / ua
    (toExt (min (min (min r1 r2) r3) r4), toExt (max (max (max r1 r2) r3) r4))
  else if ua ≤ 0 then
    if ls = 0 ∧ us = 0 then (toExt 0, toExt 0)
    else if 0 ≤ ls then (toExt 0, ⊤)
    else if us ≤ 0 then (⊥, toExt 0)
    else (⊥, ⊤)
  else
    -- default branch: 0 < ua and la ≤ 0
    if 0 < ls then (toExt (ls / ua), ⊤)
    else if us < 0 then (⊥, toExt (us / ua))
    else if ls = 0 ∧ us = 0 then (toExt 0, toExt 0)
    else if ls = 0 ∧ 0 < us then (toExt 0, ⊤)
    else if ls < 0 ∧ us = 0 then (⊥, toExt 0)
    else (⊥, ⊤)

/-- Embedding of estimators.py `disparity_bounds` (RNG-derived quantities of
the inner `spread_bounds` calls parameterized as in `spreadBounds`). -/
def disparityBounds (x y : List (Option α)) (misrate : Option ℚ)
    (marginX marginY : ℕ) (shuffledX shuffledY : List α) :
    Except Violation (ExtVal α × ExtVal α) :=
  match checkValidity x .x with
  | .error e => .error e
  | .ok _ =>
  match checkValidity y .y with
  | .error e => .error e
  | .ok _ =>
  match getMisrate misrate with
  | .error e => .error e
  | .ok mq =>
    let n := x.length
    let m := y.length
    if n < 2 then .error ⟨.domain, .x⟩
    else if m < 2 then .error ⟨.domain, .y⟩
    else
      match minAchievableMisrateTwoSample n m with
      | .error e => .error e
      | .ok minShift =>
      match minAchievableMisrateOneSample (n / 2) with
      | .error e => .error e
      | .ok minX =>
      match minAchievableMisrateOneSample (m / 2) with
      | .error e => .error e
      | .ok minY =>
        let minAvg := 2 * max minX minY
        if mq < minShift + minAvg then .error ⟨.domain, .misrate⟩
        else
          let extra := mq - (minShift + minAvg)
          let alphaShift := minShift + extra / 2
          let alphaAvg := minAvg + extra / 2
          if fastSpread (vals x) ≤ 0 then .error ⟨.sparity, .x⟩
          else if fastSpread (vals y) ≤ 0 then .error ⟨.sparity, .y⟩
          else
            match shiftBounds x y (some alphaShift) with
            | .error e => .error e
            | .ok sb =>
            match avgSpreadBounds x y (some alphaAvg) marginX marginY
                shuffledX shuffledY with
            | .error e => .error e
            | .ok ab => .ok (disparityIntervalDiv sb.1 sb.2 ab.1 ab.2)

end Disparity

/-- Embedding of assumptions.py `log`: positivity gate followed by an
elementwise natural logarithm. -/
noncomputable def logT (v : List (Option ℝ)) (s : Subject) :
    Except Violation (List (Option ℝ)) :=
  if anyNonPos v then .error ⟨.positivity, s⟩
  else .ok (v.map (Option.map Real.log))

/-- Embedding of estimators.py `ratio_bounds` (over `ℝ`): own validity and
misrate gates, log-transform of both samples, delegation to `shift_bounds` in
log space, and elementwise `exp` of the resulting interval. -/
noncomputable def ratioBounds (x y : List (Option ℝ)) (misrate : Option ℚ) :
    Except Violation (ℝ × ℝ) :=
  match checkValidity x .x with
  | .error e => .error e
  | .ok _ =>
  match checkValidity y .y with
  | .error e => .error e
  | .ok _ =>
  match getMisrate misrate with
  | .error e => .error e
  | .ok mq =>
    match minAchievableMisrateTwoSample x.length y.length with
    | .error e => .error e
    | .ok minMis =>
      if mq < minMis then .error ⟨.domain, .misrate⟩
      else
        match logT x .x with
        | .error e => .error e
        | .ok logX =>
        match logT y .y with
        | .error e => .error e
        | .ok logY =>
          match shiftBounds logX logY (some mq) with
          | .error e => .error e
          | .ok logBounds => .ok (Real.exp logBounds.1, Real.exp logBounds.2)

/-! ### Basic lemmas about the validation layer and sorting -/

section BasicLemmas

variable {α : Type} [LinearOrderedField α]

theorem checkValidity_ok {v : List (Option α)} {s : Subject}
    (h1 : v.isEmpty = false) (h2 : v.all Option.isSome = true) :
    checkValidity v s = .ok () := by
  simp [checkValidity, h1, h2]

theorem checkValidity_err {v : List (Option α)} {s : Subject}
    (h : v.isEmpty = true ∨ v.all Option.isSome = false) :
    checkValidity v s = .error ⟨.validity, s⟩ := by
  rcases h with h | h
  · simp [checkValidity, h]
  · rcases hv : v.isEmpty with _ | _ <;> simp [checkValidity, hv, h]

theorem length_pos_of_not_isEmpty {v : List (Option α)} (h : v.isEmpty = false) :
    0 < v.length := by
  cases v with
  | nil => simp at h
  | cons a t => simp

theorem sortList_sorted (l : List α) : (sortList l).Sorted (· ≤ ·) :=
  List.sorted_insertionSort (· ≤ ·) l

theorem sortList_length (l : List α) : (sortList l).length = l.length :=
  List.length_insertionSort (· ≤ ·) l

theorem sorted_getD_mono {l : List α} (hs : l.Sorted (· ≤ ·)) {i j : ℕ}
    (hij : i ≤ j) (hj : j < l.length) : l.getD i 0 ≤ l.getD j 0 := by
  have hi : i < l.length := lt_of_le_of_lt hij hj
  have h1 : l.getD i 0 = l.get ⟨i, hi⟩ := by
    simp [List.getD_eq_getElem?_getD, List.getElem?_eq_getElem hi, List.get_eq_getElem]
  have h2 : l.getD j 0 = l.get ⟨j, hj⟩ := by
    simp [List.getD_eq_getElem?_getD, List.getElem?_eq_getElem hj, List.get_eq_getElem]
  rw [h1, h2]
  exact hs.rel_get_of_le (by exact hij)

end BasicLemmas

/-! ### Interval-ordering lemmas shared by the bounds estimators -/

section IntervalLemmas

variable {α : Type} [LinearOrderedField α]

theorem shiftBounds_le {x y : List (Option α)} {misrate : Option ℚ} {b : α × α}
    (h : shiftBounds x y misrate = .ok b) : b.1 ≤ b.2 := by
  unfold shiftBounds at h
  repeat'
    first
      | split at h
      | simp only [] at h
  all_goals
    first
      | exact Except.noConfusion h
      | (injection h with h1; subst h1; simp [min_le_max])

theorem fastCenterQuantileBounds_le (s : List α) (kLo kHi : ℕ) :
    (fastCenterQuantileBounds s kLo kHi).1 ≤ (fastCenterQuantileBounds s kLo kHi).2 := by
  unfold fastCenterQuantileBounds
  exact min_le_max

theorem centerBounds_le {x : List (Option α)} {misrate : Option ℚ} {b : α × α}
    (h : centerBounds x misrate = .ok b) : b.1 ≤ b.2 := by
  unfold centerBounds at h
  repeat'
    first
      | split at h
      | simp only [] at h
  all_goals
    first
      | exact Except.noConfusion h
      | (injection h with h1; subst h1; exact fastCenterQuantileBounds_le _ _ _)

theorem spreadBounds_le {x : List (Option α)} {misrate : Option ℚ} {margin : ℕ}
    {shuffled : List α} {b : α × α}
    (h : spreadBounds x misrate margin shuffled = .ok b) : b.1 ≤ b.2 := by
  unfold spreadBounds at h
  repeat'
    first
      | split at h
      | simp only [] at h
  all_goals try exact Except.noConfusion h
  injection h with h1
  subst h1
  apply sorted_getD_mono (sortList_sorted _)
  · omega
  · simp only [sortList_length, List.length_map, List.length_range]
    omega

theorem avgSpreadBounds_le {x y : List (Option α)} {misrate : Option ℚ}
    {marginX marginY : ℕ} {shuffledX shuffledY : List α} {b : α × α}
    (h : avgSpreadBounds x y misrate marginX marginY shuffledX shuffledY = .ok b) :
    b.1 ≤ b.2 := by
  unfold avgSpreadBounds at h
  repeat'
    first
      | split at h
      | simp only [] at h
  all_goals try exact Except.noConfusion h
  rename_i sA bX hbX sB bY hbY
  injection h with h1
  subst h1
  have h2 := spreadBounds_le hbX
  have h3 := spreadBounds_le hbY
  have hwx : (0 : α) ≤ (x.length : α) / ((x.length : α) + (y.length : α)) := by positivity
  have hwy : (0 : α) ≤ (y.length : α) / ((x.length : α) + (y.length : α)) := by positivity
  exact add_le_add (mul_le_mul_of_nonneg_left h2 hwx) (mul_le_mul_of_nonneg_left h3 hwy)

theorem disparityIntervalDiv_le (ls us la ua : α) :
    (disparityIntervalDiv ls us la ua).1 ≤ (disparityIntervalDiv ls us la ua).2 := by
  unfold disparityIntervalDiv
  split_ifs <;>
    simp only [toExt, WithBot.coe_le_coe, WithTop.coe_le_coe, bot_le, le_top, le_refl]
  exact le_trans (min_le_right _ _) (le_max_right _ _)

theorem disparityBounds_le {x y : List (Option α)} {misrate : Option ℚ}
    {marginX marginY : ℕ} {shuffledX shuffledY : List α} {b : ExtVal α × ExtVal α}
    (h : disparityBounds x y misrate marginX marginY shuffledX shuffledY = .ok b) :
    b.1 ≤ b.2 := by
  unfold disparityBounds at h
  repeat'
    first
      | split at h
      | simp only [] at h
  all_goals try exact Except.noConfusion h
  injection h with h1
  subst h1
  exact disparityIntervalDiv_le _ _ _ _

theorem ratioBounds_le {x y : List (Option ℝ)} {misrate : Option ℚ} {b : ℝ × ℝ}
    (h : ratioBounds x y misrate = .ok b) : b.1 ≤ b.2 := by
  unfold ratioBounds at h
  repeat'
    first
      | split at h
      | simp only [] at h
  all_goals try exact Except.noConfusion h
  rename_i sB lb hlb
  injection h with h1
  subst h1
  exact Real.exp_le_exp.mpr (shiftBounds_le hlb)

end IntervalLemmas

/-! ### Success-path lemmas for the validation gates -/

section GateLemmas

variable {α : Type} [LinearOrderedField α]

theorem getMisrate_ok {mq : ℚ} (h0 : 0 ≤ mq) (h1 : mq ≤ 1) :
    getMisrate (some mq) = .ok mq := by
  unfold getMisrate
  dsimp only
  rw [if_neg]
  push_neg
  exact ⟨h0, h1⟩

theorem minTwoSample_eq {n m : ℕ} (hn : 0 < n) (hm : 0 < m) :
    minAchievableMisrateTwoSample (n : ℤ) (m : ℤ) = .ok (2 / ((n + m).choose n : ℚ)) := by
  unfold minAchievableMisrateTwoSample
  rw [if_neg (by omega), if_neg (by omega)]
  norm_num [Int.toNat_natCast]
  rw [show ((n : ℤ) + (m : ℤ)).toNat = n + m by omega]

theorem minOneSample_eq {n : ℕ} (hn : 0 < n) :
    minAchievableMisrateOneSample (n : ℤ) = .ok ((2 : ℚ) ^ (1 - (n : ℤ))) := by
  unfold minAchievableMisrateOneSample
  rw [if_neg (by omega)]

theorem pairwiseMargin_eq {n m : ℕ} {mq : ℚ} (hn : 0 < n) (hm : 0 < m)
    (h0 : 0 ≤ mq) (h1 : mq ≤ 1) (hmin : 2 / ((n + m).choose n : ℚ) ≤ mq) :
    pairwiseMargin (n : ℤ) (m : ℤ) mq = .ok (pairwiseMarginRaw n m (mq / 2) * 2) := by
  unfold pairwiseMargin
  rw [if_neg (by omega), if_neg (by omega), if_neg (by push_neg; exact ⟨h0, h1⟩),
    minTwoSample_eq hn hm]
  simp only [Int.toNat_natCast]
  rw [if_neg (not_lt.mpr hmin)]

theorem shiftBounds_exists_ok {x y : List (Option α)} {mq : ℚ}
    (hxe : x.isEmpty = false) (hxf : x.all Option.isSome = true)
    (hye : y.isEmpty = false) (hyf : y.all Option.isSome = true)
    (h0 : 0 ≤ mq) (h1 : mq ≤ 1)
    (hmin : 2 / ((x.length + y.length).choose x.length : ℚ) ≤ mq) :
    ∃ b, shiftBounds x y (some mq) = .ok b := by
  have hn := length_pos_of_not_isEmpty hxe
  have hm := length_pos_of_not_isEmpty hye
  unfold shiftBounds
  rw [checkValidity_ok hxe hxf, checkValidity_ok hye hyf, getMisrate_ok h0 h1]
  dsimp only
  rw [minTwoSample_eq hn hm]
  dsimp only
  rw [if_neg (not_lt.mpr hmin)]
  split
  · exact ⟨_, rfl⟩
  · rw [pairwiseMargin_eq hn hm h0 h1 hmin]
    exact ⟨_, rfl⟩

end GateLemmas

/-! ### Correctness of the signed-rank DP (signed_rank_margin.py) -/

section SignedRankLemmas

theorem srMaxW_succ (k : ℕ) : srMaxW (k + 1) = srMaxW k + (k + 1) := by
  unfold srMaxW
  have h : (k + 1) * (k + 2) = k * (k + 1) + (k + 1) * 2 := by ring
  rw [h, Nat.add_mul_div_right _ _ (by norm_num)]

theorem srMaxW_mono {a b : ℕ} (h : a ≤ b) : srMaxW a ≤ srMaxW b :=
  Nat.div_le_div_right (Nat.mul_le_mul h (by omega))

theorem sum_range_add_one (k : ℕ) : ∑ j ∈ Finset.range k, (j + 1) = srMaxW k := by
  induction k with
  | zero => simp [srMaxW]
  | succ k ih => rw [Finset.sum_range_succ, ih, srMaxW_succ]

theorem srSubsetCount_le_max {k w : ℕ} (h : srMaxW k < w) : srSubsetCount k w = 0 := by
  unfold srSubsetCount
  rw [Finset.card_eq_zero, Finset.filter_eq_empty_iff]
  intro S hS
  rw [Finset.mem_powerset] at hS
  intro hsum
  have hle : S.sum (fun j => j + 1) ≤ ∑ j ∈ Finset.range k, (j + 1) :=
    Finset.sum_le_sum_of_subset hS
  rw [sum_range_add_one] at hle
  omega

theorem srSubsetCount_zero (w : ℕ) : srSubsetCount 0 w = srInit w := by
  unfold srSubsetCount srInit
  rw [Finset.range_zero, Finset.powerset_empty, Finset.filter_singleton]
  rcases eq_or_ne w 0 with h | h
  · subst h
    simp
  · simp [Ne.symm h, h]

theorem srSubsetCount_succ (k w : ℕ) :
    srSubsetCount (k + 1) w =
      srSubsetCount k w + if k + 1 ≤ w then srSubsetCount k (w - (k + 1)) else 0 := by
  classical
  unfold srSubsetCount
  rw [Finset.range_succ, Finset.powerset_insert, Finset.filter_union,
    Finset.card_union_of_disjoint]
  · congr 1
    rw [Finset.filter_image]
    have hstep : ∀ S ∈ (Finset.range k).powerset,
        ((insert k S).sum (fun j => j + 1) = w) ↔ (k + 1) + S.sum (fun j => j + 1) = w := by
      intro S hS
      rw [Finset.mem_powerset] at hS
      have hk : k ∉ S := fun hm => absurd (hS hm) (by simp)
      rw [Finset.sum_insert hk]
    rw [Finset.filter_congr hstep]
    rcases le_or_lt (k + 1) w with hkw | hkw
    · rw [if_pos hkw]
      have hstep2 : ∀ S ∈ (Finset.range k).powerset,
          ((k + 1) + S.sum (fun j => j + 1) = w) ↔ S.sum (fun j => j + 1) = w - (k + 1) := by
        intro S _
        omega
      rw [Finset.filter_congr hstep2, Finset.card_image_of_injOn]
      intro S hS T hT hST
      rw [Finset.coe_filter, Set.mem_setOf_eq] at hS hT
      have hkS : k ∉ S := fun hm => absurd (Finset.mem_powerset.mp hS.1 hm) (by simp)
      have hkT : k ∉ T := fun hm => absurd (Finset.mem_powerset.mp hT.1 hm) (by simp)
      rw [← Finset.erase_insert hkS, ← Finset.erase_insert hkT, hST]
    · rw [if_neg (by omega)]
      rw [Finset.filter_false_of_mem, Finset.image_empty, Finset.card_empty]
      intro S _
      omega
  · rw [Finset.disjoint_left]
    intro S hS hS2
    rw [Finset.mem_filter, Finset.mem_powerset] at hS
    rw [Finset.mem_filter, Finset.mem_image] at hS2
    obtain ⟨T, _, hT⟩ := hS2.1
    have hk : k ∈ S := hT ▸ Finset.mem_insert_self k T
    exact absurd (hS.1 hk) (by simp)

theorem srCounts_prefix (N : ℕ) :
    ∀ n, n ≤ N →
      (List.range n).foldl
        (fun c i => srPass (i + 1) (min ((i + 1) * (i + 2) / 2) (srMaxW N)) c) srInit =
      srCountsSimple n := by
  intro n
  induction n with
  | zero => intro _; rfl
  | succ n ih =>
    intro hn
    rw [List.range_succ, List.foldl_append, ih (by omega)]
    simp only [List.foldl_cons, List.foldl_nil]
    have hmin : min ((n + 1) * (n + 2) / 2) (srMaxW N) = srMaxW (n + 1) := by
      have h1 : (n + 1) * (n + 2) / 2 = srMaxW (n + 1) := by
        unfold srMaxW
        ring_nf
      rw [h1]
      exact min_eq_left (srMaxW_mono hn)
    rw [hmin]
    rfl

theorem srCountsSimple_eq : ∀ n w, srCountsSimple n w = srSubsetCount n w := by
  intro n
  induction n with
  | zero => exact fun w => (srSubsetCount_zero w).symm
  | succ n ih =>
    intro w
    show srPass (n + 1) (srMaxW (n + 1)) (srCountsSimple n) w = _
    unfold srPass
    rw [srSubsetCount_succ n w]
    rcases le_or_lt (n + 1) w with hw1 | hw1
    · rcases le_or_lt w (srMaxW (n + 1)) with hw2 | hw2
      · rw [if_pos ⟨hw1, hw2⟩, if_pos hw1, ih, ih]
      · rw [if_neg (by omega), if_pos hw1, ih]
        have hz1 : srSubsetCount n w = 0 :=
          srSubsetCount_le_max (lt_of_le_of_lt (srMaxW_mono (by omega)) hw2)
        have hz2 : srSubsetCount n (w - (n + 1)) = 0 := by
          apply srSubsetCount_le_max
          have := srMaxW_succ n
          omega
        omega
    · rw [if_neg (by omega), if_neg (by omega), ih]
      omega

theorem srCounts_eq (n w : ℕ) : srCounts n w = srSubsetCount n w := by
  have h1 : srCounts n = srCountsSimple n := srCounts_prefix n n le_rfl
  rw [h1, srCountsSimple_eq]

theorem srCDF_eq_subset (n w : ℕ) : srCDF n w = srSubsetCDF n w := by
  unfold srCDF srSubsetCDF
  congr 1
  exact Finset.sum_congr rfl fun v _ => by rw [srCounts_eq]

theorem srSubsetCount_total (n : ℕ) :
    ∑ v ∈ Finset.range (srMaxW n + 1), srSubsetCount n v = 2 ^ n := by
  classical
  have hcard : ((Finset.range n).powerset).card = 2 ^ n := by
    rw [Finset.card_powerset, Finset.card_range]
  rw [← hcard]
  rw [Finset.card_eq_sum_card_fiberwise
    (f := fun S : Finset ℕ => S.sum (fun j => j + 1))
    (t := Finset.range (srMaxW n + 1)) ?_]
  · rfl
  · intro S hS
    rw [Finset.mem_range, Nat.lt_succ_iff]
    calc S.sum (fun j => j + 1) ≤ ∑ j ∈ Finset.range n, (j + 1) :=
          Finset.sum_le_sum_of_subset (Finset.mem_powerset.mp hS)
      _ = srMaxW n := sum_range_add_one n

theorem srSubsetCDF_top (n : ℕ) : srSubsetCDF n (srMaxW n) = 1 := by
  unfold srSubsetCDF
  rw [show (∑ v ∈ Finset.range (srMaxW n + 1), (srSubsetCount n v : ℚ)) =
      ((∑ v ∈ Finset.range (srMaxW n + 1), srSubsetCount n v : ℕ) : ℚ) by push_cast; rfl]
  rw [srSubsetCount_total]
  push_cast
  rw [div_self (by positivity)]

theorem firstSat_eq (P : ℕ → Bool) (fb : ℕ) :
    ∀ fuel cur w, cur ≤ w → w < cur + fuel → P w = true →
      (∀ v, cur ≤ v → v < w → P v = false) → firstSat P fb cur fuel = w := by
  intro fuel
  induction fuel with
  | zero =>
    intro cur w h1 h2 _ _
    omega
  | succ fuel ih =>
    intro cur w h1 h2 hPw hmin
    show (if P cur then cur else firstSat P fb (cur + 1) fuel) = w
    rcases eq_or_lt_of_le h1 with heq | hlt
    · subst heq
      rw [if_pos hPw]
    · rw [if_neg (by rw [hmin cur le_rfl hlt]; simp)]
      exact ih (cur + 1) w hlt (by omega) hPw (fun v hv1 hv2 => hmin v (by omega) hv2)

theorem exactRaw_isLeast (n : ℕ) (p : ℚ) (hp : p ≤ 1) :
    IsLeast {w : ℕ | p ≤ srSubsetCDF n w} (signedRankMarginExactRaw n p) := by
  have hmem : p ≤ srSubsetCDF n (srMaxW n) := by
    rw [srSubsetCDF_top]
    exact hp
  have hex : ∃ w, p ≤ srSubsetCDF n w := ⟨srMaxW n, hmem⟩
  have hP := Nat.find_spec hex
  have hlt : ∀ v < Nat.find hex, ¬ p ≤ srSubsetCDF n v := fun v hv => Nat.find_min hex hv
  have hle : Nat.find hex ≤ srMaxW n := Nat.find_min' hex hmem
  have heq : signedRankMarginExactRaw n p = Nat.find hex := by
    unfold signedRankMarginExactRaw
    apply firstSat_eq
    · exact Nat.zero_le _
    · omega
    · simp [srCDF_eq_subset]
      exact hP
    · intro v hv1 hv2
      simp [srCDF_eq_subset]
      exact lt_of_not_le (hlt v hv2)
  rw [heq]
  exact ⟨hP, fun v hv => by
    by_contra hc
    push_neg at hc
    exact (hlt v hc) hv⟩

end SignedRankLemmas

/-! ### Delegation and interval-division helper lemmas -/

section MoreHelpers

variable {α : Type} [LinearOrderedField α]

theorem ratioBounds_eq_map (x y : List (Option ℝ)) (mq : ℚ)
    (hxe : x.isEmpty = false) (hxf : x.all Option.isSome = true)
    (hye : y.isEmpty = false) (hyf : y.all Option.isSome = true)
    (hxp : anyNonPos x = false) (hyp : anyNonPos y = false)
    (h0 : 0 ≤ mq) (h1 : mq ≤ 1)
    (hmin : 2 / ((x.length + y.length).choose x.length : ℚ) ≤ mq) :
    ratioBounds x y (some mq) =
      (shiftBounds (x.map (Option.map Real.log)) (y.map (Option.map Real.log))
          (some mq)).map (fun b => (Real.exp b.1, Real.exp b.2)) := by
  have hn := length_pos_of_not_isEmpty hxe
  have hm := length_pos_of_not_isEmpty hye
  unfold ratioBounds
  rw [checkValidity_ok hxe hxf, checkValidity_ok hye hyf, getMisrate_ok h0 h1]
  dsimp only
  rw [minTwoSample_eq hn hm]
  dsimp only
  rw [if_neg (not_lt.mpr hmin)]
  unfold logT
  rw [if_neg (by rw [hxp]; simp), if_neg (by rw [hyp]; simp)]
  dsimp only
  cases hsb : shiftBounds (x.map (Option.map Real.log)) (y.map (Option.map Real.log))
      (some mq) with
  | error e => simp [Except.map]
  | ok lb => simp [Except.map]

theorem shiftBounds_log_isOk (x y : List (Option ℝ)) (mq : ℚ)
    (hxe : x.isEmpty = false) (hxf : x.all Option.isSome = true)
    (hye : y.isEmpty = false) (hyf : y.all Option.isSome = true)
    (h0 : 0 ≤ mq) (h1 : mq ≤ 1)
    (hmin : 2 / ((x.length + y.length).choose x.length : ℚ) ≤ mq) :
    (shiftBounds (x.map (Option.map Real.log)) (y.map (Option.map Real.log))
        (some mq)).isOk = true := by
  have hxe2 : (x.map (Option.map Real.log)).isEmpty = false := by
    cases x <;> simp_all
  have hye2 : (y.map (Option.map Real.log)).isEmpty = false := by
    cases y <;> simp_all
  have hxf2 : (x.map (Option.map Real.log)).all Option.isSome = true := by
    rw [List.all_map]
    rw [List.all_eq_true] at hxf ⊢
    intro o ho
    have := hxf o ho
    cases o <;> simp_all
  have hyf2 : (y.map (Option.map Real.log)).all Option.isSome = true := by
    rw [List.all_map]
    rw [List.all_eq_true] at hyf ⊢
    intro o ho
    have := hyf o ho
    cases o <;> simp_all
  obtain ⟨b, hb⟩ := shiftBounds_exists_ok hxe2 hxf2 hye2 hyf2 h0 h1
    (by simpa using hmin)
  rw [hb]
  rfl

theorem div_mem_of_mem_pos {la ua a : α} (t : α) (hla : 0 < la) (hau : la ≤ ua)
    (ha1 : la ≤ a) (ha2 : a ≤ ua) :
    min (t / la) (t / ua) ≤ t / a ∧ t / a ≤ max (t / la) (t / ua) := by
  have hua0 : 0 < ua := lt_of_lt_of_le hla hau
  have ha0 : 0 < a := lt_of_lt_of_le hla ha1
  rcases le_or_lt 0 t with ht | ht
  · constructor
    · exact le_trans (min_le_right _ _) (by gcongr)
    · exact le_trans (by gcongr) (le_max_left _ _)
  · constructor
    · refine le_trans (min_le_left _ _) ?_
      rw [div_le_div_iff hla ha0]
      nlinarith
    · refine le_trans ?_ (le_max_right _ _)
      rw [div_le_div_iff ha0 hua0]
      nlinarith

end MoreHelpers

/-! ### The claims -/

section Claims

variable {α : Type} [LinearOrderedField α]

/-- Claim C1 (amended): for `1 ≤ n ≤ 63` and misrate in
`[min_achievable_misrate_one_sample(n), 1]`, `signed_rank_margin` computes the
exact Wilcoxon signed-rank distribution by dynamic programming and returns
twice the SMALLEST rank-sum `w` whose CDF is at least `misrate/2` (the claim's
"largest w with CDF ≤ misrate/2" is refuted by `claim_C1_counterexample`); the
least-element property is stated against the subset-count distribution
`srSubsetCDF`, with the DP-equals-distribution fact proved in `srCounts_eq`.
For `n > 63` it instead returns twice the value located by integer binary
search on `w` over the Edgeworth expansion with continuity correction. -/
theorem claim_C1 (n : ℤ) (mis : ℚ) (hn : 0 < n)
    (hmin : (2 : ℚ) ^ (1 - n) ≤ mis) (hle : mis ≤ 1) :
    (n ≤ 63 →
      signedRankMargin n mis = .ok (signedRankMarginExactRaw n.toNat (mis / 2) * 2) ∧
      IsLeast {w : ℕ | mis / 2 ≤ srSubsetCDF n.toNat w}
        (signedRankMarginExactRaw n.toNat (mis / 2))) ∧
    (63 < n →
      signedRankMargin n mis = .ok (signedRankMarginApproxRaw n.toNat ((mis : ℝ) / 2) * 2)) := by
  have hpos : (0 : ℚ) < 2 ^ (1 - n) := zpow_pos (by norm_num) _
  have hm0 : ¬(mis < 0 ∨ 1 < mis) := by
    push_neg
    exact ⟨by linarith, hle⟩
  constructor
  · intro h63
    constructor
    · unfold signedRankMargin
      rw [if_neg (by omega), if_neg hm0]
      unfold minAchievableMisrateOneSample
      rw [if_neg (by omega)]
      dsimp only
      rw [if_neg (not_lt.mpr hmin),
        if_pos (show n ≤ SIGNED_RANK_MAX_EXACT_SIZE from h63)]
      rfl
    · exact exactRaw_isLeast n.toNat (mis / 2) (by linarith)
  · intro h63
    unfold signedRankMargin
    rw [if_neg (by omega), if_neg hm0]
    unfold minAchievableMisrateOneSample
    rw [if_neg (by omega)]
    dsimp only
    rw [if_neg (not_lt.mpr hmin),
      if_neg (show ¬n ≤ SIGNED_RANK_MAX_EXACT_SIZE by
        unfold SIGNED_RANK_MAX_EXACT_SIZE; omega)]
    rfl

/-- Witness for C1 at `n = 5`, `misrate = 1/2`. -/
theorem claim_C1_witness :
    ((0 : ℤ) < 5 ∧ (2 : ℚ) ^ (1 - (5 : ℤ)) ≤ 1 / 2 ∧ (1 : ℚ) / 2 ≤ 1) ∧
    (((5 : ℤ) ≤ 63 →
      signedRankMargin 5 (1 / 2) =
        .ok (signedRankMarginExactRaw (5 : ℤ).toNat (1 / 2 / 2) * 2) ∧
      IsLeast {w : ℕ | 1 / 2 / 2 ≤ srSubsetCDF (5 : ℤ).toNat w}
        (signedRankMarginExactRaw (5 : ℤ).toNat (1 / 2 / 2))) ∧
     (63 < (5 : ℤ) →
      signedRankMargin 5 (1 / 2) =
        .ok (signedRankMarginApproxRaw (5 : ℤ).toNat ((((1 : ℚ) / 2 : ℚ) : ℝ) / 2) * 2))) :=
  ⟨⟨by decide, by norm_num, by norm_num⟩,
    claim_C1 5 (1 / 2) (by decide) (by norm_num) (by norm_num)⟩

/-- Counterexample refuting C1 as stated: at `n = 2`, `misrate = 3/5` the
margin is `2`, but the largest rank-sum whose CDF is at most `misrate/2` is
`0`, so "twice the largest w with CDF ≤ misrate/2" would be `0`, not `2`. -/
theorem claim_C1_counterexample :
    signedRankMargin 2 (3 / 5) = .ok 2 ∧
    srLargestWithCdfLE 2 (3 / 5 / 2) = 0 ∧
    (2 : ℕ) ≠ srLargestWithCdfLE 2 (3 / 5 / 2) * 2 :=
  ⟨rfl, by decide, by decide⟩

/-- Claim C2 (amended): in `ratio` the assumption checks are interleaved by
priority class — validity(x), validity(y), positivity(x), positivity(y) — so
for every `x` that violates positivity while being valid and every `y` that
violates validity, the call reports validity(y), not positivity(x) (the
original claim is refuted by `claim_C2_counterexample`). -/
theorem claim_C2 (x y : List (Option ℝ)) (v : ℝ)
    (hxe : x.isEmpty = false) (hxf : x.all Option.isSome = true)
    (hv : some v ∈ x) (hv0 : v ≤ 0)
    (hy : y.isEmpty = true ∨ none ∈ y) :
    ratio x y = .error ⟨.validity, .y⟩ := by
  unfold ratio
  rw [checkValidity_ok hxe hxf]
  have herr : checkValidity y Subject.y = .error ⟨.validity, .y⟩ := by
    apply checkValidity_err
    rcases hy with h | h
    · exact Or.inl h
    · right
      rw [Bool.eq_false_iff]
      intro hall
      have h2 := List.all_eq_true.mp hall _ h
      simp at h2
  rw [herr]

/-- Witness for C2 at `x = [1, -1]`, `y = [0, NaN]`. -/
theorem claim_C2_witness :
    ([some 1, some (-1)] : List (Option ℝ)).isEmpty = false ∧
    ([some 1, some (-1)] : List (Option ℝ)).all Option.isSome = true ∧
    some (-1 : ℝ) ∈ ([some 1, some (-1)] : List (Option ℝ)) ∧
    (-1 : ℝ) ≤ 0 ∧
    (([some 0, none] : List (Option ℝ)).isEmpty = true ∨
      none ∈ ([some 0, none] : List (Option ℝ))) ∧
    ratio [some 1, some (-1)] [some 0, none] = .error ⟨.validity, .y⟩ :=
  ⟨by simp, by simp, by simp, by norm_num,
    Or.inr (by simp),
    claim_C2 [some 1, some (-1)] [some 0, none] (-1) (by simp) (by simp) (by simp)
      (by norm_num) (Or.inr (by simp))⟩

/-- Counterexample refuting C2 as stated: `x = [1, -1]` violates positivity
and `y = [0, NaN]` violates validity, yet `ratio` reports validity(y), not
positivity(x). -/
theorem claim_C2_counterexample :
    ratio [some 1, some (-1)] [some 0, none] = .error ⟨.validity, .y⟩ ∧
    (Violation.mk .validity .y ≠ ⟨.positivity, .x⟩) :=
  ⟨rfl, by decide⟩

/-- Claim C3: `min_achievable_misrate_one_sample(n) = 2^(1-n)` and
`min_achievable_misrate_two_sample(n, m) = 2 / C(n+m, n)` exactly for positive
`n`, `m`; for non-positive `n` (resp. `m`) they raise domain(x) (resp.
domain(y)). -/
theorem claim_C3 (n m k : ℤ) (hn : 0 < n) (hm : 0 < m) (hk : k ≤ 0) :
    minAchievableMisrateOneSample n = .ok ((2 : ℚ) ^ (1 - n)) ∧
    minAchievableMisrateTwoSample n m = .ok (2 / ((n + m).toNat.choose n.toNat : ℚ)) ∧
    minAchievableMisrateOneSample k = .error ⟨.domain, .x⟩ ∧
    minAchievableMisrateTwoSample k m = .error ⟨.domain, .x⟩ ∧
    minAchievableMisrateTwoSample n k = .error ⟨.domain, .y⟩ := by
  refine ⟨?_, ?_, ?_, ?_, ?_⟩
  · unfold minAchievableMisrateOneSample
    rw [if_neg (by omega)]
  · unfold minAchievableMisrateTwoSample
    rw [if_neg (by omega), if_neg (by omega)]
  · unfold minAchievableMisrateOneSample
    rw [if_pos hk]
  · unfold minAchievableMisrateTwoSample
    rw [if_pos hk]
  · unfold minAchievableMisrateTwoSample
    rw [if_neg (by omega), if_pos hk]

/-- Witness for C3 at `n = 3`, `m = 2`, `k = -1`. -/
theorem claim_C3_witness :
    (0 : ℤ) < 3 ∧ (0 : ℤ) < 2 ∧ (-1 : ℤ) ≤ 0 ∧
    (minAchievableMisrateOneSample 3 = .ok ((2 : ℚ) ^ (1 - (3 : ℤ))) ∧
     minAchievableMisrateTwoSample 3 2 =
       .ok (2 / (((3 : ℤ) + 2).toNat.choose (3 : ℤ).toNat : ℚ)) ∧
     minAchievableMisrateOneSample (-1) = .error ⟨.domain, .x⟩ ∧
     minAchievableMisrateTwoSample (-1) 2 = .error ⟨.domain, .x⟩ ∧
     minAchievableMisrateTwoSample 3 (-1) = .error ⟨.domain, .y⟩) :=
  ⟨by decide, by decide, by decide, claim_C3 3 2 (-1) (by decide) (by decide) (by decide)⟩

/-- Claim C4: for valid samples, `shift_bounds` raises domain(misrate) when the
misrate is NaN (`none`), outside `[0,1]`, or strictly below
`min_achievable_misrate_two_sample(len x, len y)`, and returns normally for
every misrate in `[min, 1]`. -/
theorem claim_C4 (x y : List (Option α)) (mq bad low : ℚ)
    (hxe : x.isEmpty = false) (hxf : x.all Option.isSome = true)
    (hye : y.isEmpty = false) (hyf : y.all Option.isSome = true)
    (hbad : bad < 0 ∨ 1 < bad)
    (hlow0 : 0 ≤ low) (hlow1 : low ≤ 1)
    (hlow : low < 2 / ((x.length + y.length).choose x.length : ℚ))
    (h0 : 0 ≤ mq) (h1 : mq ≤ 1)
    (hmq : 2 / ((x.length + y.length).choose x.length : ℚ) ≤ mq) :
    shiftBounds x y none = .error ⟨.domain, .misrate⟩ ∧
    shiftBounds x y (some bad) = .error ⟨.domain, .misrate⟩ ∧
    shiftBounds x y (some low) = .error ⟨.domain, .misrate⟩ ∧
    (shiftBounds x y (some mq)).isOk = true := by
  have hn := length_pos_of_not_isEmpty hxe
  have hm := length_pos_of_not_isEmpty hye
  refine ⟨?_, ?_, ?_, ?_⟩
  · unfold shiftBounds
    rw [checkValidity_ok hxe hxf, checkValidity_ok hye hyf]
    unfold getMisrate
    dsimp only
  · unfold shiftBounds
    rw [checkValidity_ok hxe hxf, checkValidity_ok hye hyf]
    unfold getMisrate
    dsimp only
    rw [if_pos hbad]
  · unfold shiftBounds
    rw [checkValidity_ok hxe hxf, checkValidity_ok hye hyf,
      getMisrate_ok hlow0 hlow1]
    dsimp only
    rw [minTwoSample_eq hn hm]
    dsimp only
    rw [if_pos hlow]
  · obtain ⟨b, hb⟩ := shiftBounds_exists_ok hxe hxf hye hyf h0 h1 hmq
    rw [hb]
    rfl

/-- Witness for C4 at `x = [0]`, `y = [0, 1]` (minimum misrate `2/3`),
`bad = 2`, `low = 1/2`, `ok = 1`. -/
theorem claim_C4_witness :
    (([some 0] : List (Option ℚ)).isEmpty = false ∧
     ([some 0, some 1] : List (Option ℚ)).isEmpty = false ∧
     ((2 : ℚ) < 0 ∨ 1 < (2 : ℚ)) ∧
     (0 : ℚ) ≤ 1 / 2 ∧ (1 : ℚ) / 2 ≤ 1 ∧
     (1 : ℚ) / 2 < 2 / ((1 + 2).choose 1 : ℚ) ∧
     2 / ((1 + 2).choose 1 : ℚ) ≤ 1) ∧
    (shiftBounds ([some 0] : List (Option ℚ)) [some 0, some 1] none =
        .error ⟨.domain, .misrate⟩ ∧
     shiftBounds ([some 0] : List (Option ℚ)) [some 0, some 1] (some 2) =
        .error ⟨.domain, .misrate⟩ ∧
     shiftBounds ([some 0] : List (Option ℚ)) [some 0, some 1] (some (1 / 2)) =
        .error ⟨.domain, .misrate⟩ ∧
     (shiftBounds ([some 0] : List (Option ℚ)) [some 0, some 1] (some 1)).isOk = true) := by
  constructor
  · refine ⟨by simp, by simp, by norm_num, by norm_num, by norm_num, ?_, ?_⟩
    · norm_num [Nat.choose]
    · norm_num [Nat.choose]
  · have h := claim_C4 ([some 0] : List (Option ℚ)) [some 0, some 1] 1 2 (1 / 2)
      (by simp) (by simp) (by simp) (by simp) (by norm_num) (by norm_num) (by norm_num)
      (by norm_num [Nat.choose]) (by norm_num) (by norm_num) (by norm_num [Nat.choose])
    simpa using h

/-- Claim C5: whenever any of the five `*_bounds` estimators returns normally,
the returned interval satisfies `lower ≤ upper`, for every input (including
every RNG outcome of the parameterized margins and shuffles). -/
theorem claim_C5 (x y : List (Option α)) (mS : Option ℚ) (bS : α × α)
    (xr yr : List (Option ℝ)) (mR : Option ℚ) (bR : ℝ × ℝ)
    (xc : List (Option α)) (mC : Option ℚ) (bC : α × α)
    (xp : List (Option α)) (mP : Option ℚ) (mgP : ℕ) (shP : List α) (bP : α × α)
    (xd yd : List (Option α)) (mD : Option ℚ) (mgX mgY : ℕ) (shX shY : List α)
    (bD : ExtVal α × ExtVal α)
    (hS : shiftBounds x y mS = .ok bS)
    (hR : ratioBounds xr yr mR = .ok bR)
    (hC : centerBounds xc mC = .ok bC)
    (hP : spreadBounds xp mP mgP shP = .ok bP)
    (hD : disparityBounds xd yd mD mgX mgY shX shY = .ok bD) :
    bS.1 ≤ bS.2 ∧ bR.1 ≤ bR.2 ∧ bC.1 ≤ bC.2 ∧ bP.1 ≤ bP.2 ∧ bD.1 ≤ bD.2 :=
  ⟨shiftBounds_le hS, ratioBounds_le hR, centerBounds_le hC, spreadBounds_le hP,
    disparityBounds_le hD⟩

set_option maxRecDepth 4000 in
/-- Witness for C5: one successful concrete run of each of the five bounds
estimators. -/
theorem claim_C5_witness :
    (shiftBounds ([some 0] : List (Option ℚ)) [some 0] (some 1) = .ok (0, 0) ∧
     ratioBounds ([some 1] : List (Option ℝ)) [some 1] (some 1) =
       .ok (Real.exp (Real.log 1 - Real.log 1), Real.exp (Real.log 1 - Real.log 1)) ∧
     centerBounds ([some 1, some 2] : List (Option ℚ)) (some (1 / 2)) = .ok (1, 2) ∧
     spreadBounds ([some 0, some 1] : List (Option ℚ)) (some 1) 0 [0, 1] = .ok (1, 1) ∧
     disparityBounds ([some 0, some 1, some 2, some 3, some 4, some 5] : List (Option ℚ))
       [some 0, some 1, some 2, some 3, some 4, some 5] (some 1) 0 0
       [0, 1, 2, 3, 4, 5] [0, 1, 2, 3, 4, 5] = .ok (toExt (-1), toExt 1)) ∧
    ((0 : ℚ) ≤ 0 ∧
     Real.exp (Real.log 1 - Real.log 1) ≤ Real.exp (Real.log 1 - Real.log 1) ∧
     (1 : ℚ) ≤ 2 ∧ (1 : ℚ) ≤ 1 ∧ toExt (-1 : ℚ) ≤ toExt 1) := by
  have hR : ratioBounds ([some 1] : List (Option ℝ)) [some 1] (some 1) =
      .ok (Real.exp (Real.log 1 - Real.log 1), Real.exp (Real.log 1 - Real.log 1)) := by
    rw [ratioBounds_eq_map [some 1] [some 1] 1 (by simp) (by simp) (by simp) (by simp)
      (by norm_num [anyNonPos]) (by norm_num [anyNonPos]) (by norm_num) (by norm_num)
      (by norm_num [Nat.choose])]
    rfl
  have hS : shiftBounds ([some 0] : List (Option ℚ)) [some 0] (some 1) = .ok (0, 0) := rfl
  have hC : centerBounds ([some 1, some 2] : List (Option ℚ)) (some (1 / 2)) =
      .ok (1, 2) := rfl
  have hP : spreadBounds ([some 0, some 1] : List (Option ℚ)) (some 1) 0 [0, 1] =
      .ok (1, 1) := rfl
  have hD : disparityBounds ([some 0, some 1, some 2, some 3, some 4, some 5] :
        List (Option ℚ))
      [some 0, some 1, some 2, some 3, some 4, some 5] (some 1) 0 0
      [0, 1, 2, 3, 4, 5] [0, 1, 2, 3, 4, 5] = .ok (toExt (-1), toExt 1) := rfl
  exact ⟨⟨hS, hR, hC, hP, hD⟩,
    claim_C5 _ _ _ _ _ _ _ _ _ _ _ _ _ _ _ _ _ _ _ _ _ _ _ _ hS hR hC hP hD⟩

/-- Claim C6: for strictly positive valid samples and an admissible misrate,
`ratio_bounds(x, y, m)` is exactly `exp` applied elementwise to
`shift_bounds(log x, log y, m)` (exact equality in the real-number model, hence
within the claimed 1e-9), and the log-space `shift_bounds` call succeeds. -/
theorem claim_C6 (x y : List (Option ℝ)) (mq : ℚ)
    (hxe : x.isEmpty = false) (hxf : x.all Option.isSome = true)
    (hye : y.isEmpty = false) (hyf : y.all Option.isSome = true)
    (hxp : anyNonPos x = false) (hyp : anyNonPos y = false)
    (h0 : 0 ≤ mq) (h1 : mq ≤ 1)
    (hmin : 2 / ((x.length + y.length).choose x.length : ℚ) ≤ mq) :
    ratioBounds x y (some mq) =
      (shiftBounds (x.map (Option.map Real.log)) (y.map (Option.map Real.log))
          (some mq)).map (fun b => (Real.exp b.1, Real.exp b.2)) ∧
    (shiftBounds (x.map (Option.map Real.log)) (y.map (Option.map Real.log))
        (some mq)).isOk = true :=
  ⟨ratioBounds_eq_map x y mq hxe hxf hye hyf hxp hyp h0 h1 hmin,
    shiftBounds_log_isOk x y mq hxe hxf hye hyf h0 h1 hmin⟩

/-- Witness for C6 at `x = y = [1]`, `misrate = 1`. -/
theorem claim_C6_witness :
    (anyNonPos ([some 1] : List (Option ℝ)) = false ∧
     2 / ((([some 1] : List (Option ℝ)).length +
        ([some 1] : List (Option ℝ)).length).choose
        ([some 1] : List (Option ℝ)).length : ℚ) ≤ 1) ∧
    (ratioBounds ([some 1] : List (Option ℝ)) [some 1] (some 1) =
      (shiftBounds (([some 1] : List (Option ℝ)).map (Option.map Real.log))
          (([some 1] : List (Option ℝ)).map (Option.map Real.log))
          (some 1)).map (fun b => (Real.exp b.1, Real.exp b.2)) ∧
     (shiftBounds (([some 1] : List (Option ℝ)).map (Option.map Real.log))
        (([some 1] : List (Option ℝ)).map (Option.map Real.log))
        (some 1)).isOk = true) := by
  constructor
  · constructor
    · norm_num [anyNonPos]
    · norm_num [Nat.choose]
  · exact claim_C6 [some 1] [some 1] 1 (by simp) (by simp) (by simp) (by simp)
      (by norm_num [anyNonPos]) (by norm_num [anyNonPos]) (by norm_num) (by norm_num)
      (by norm_num [Nat.choose])

/-- Claim C7 (amended): every valid single-element sample fails sparity in
`spread`, which raises sparity(x); but `spread_bounds` on a single-element
sample raises domain(x) — not sparity(x) as claimed — because the minimum
achievable misrate is computed for `m = n // 2 = 0` disjoint pairs before the
size and sparity checks (refutation in `claim_C7_counterexample`). -/
theorem claim_C7 (v : α) (mq : ℚ) (margin : ℕ) (shuffled : List α)
    (h0 : 0 ≤ mq) (h1 : mq ≤ 1) :
    spread [some v] = .error ⟨.sparity, .x⟩ ∧
    spreadBounds [some v] (some mq) margin shuffled = .error ⟨.domain, .x⟩ := by
  constructor
  · unfold spread
    rw [checkValidity_ok (by simp) (by simp)]
    dsimp only
    rw [if_pos]
    simp [fastSpread, vals, pairwiseAbsDiffs, medianList, sortList, medianOfSorted,
      List.insertionSort]
  · unfold spreadBounds
    rw [checkValidity_ok (by simp) (by simp), getMisrate_ok h0 h1]
    dsimp only
    norm_num
    unfold minAchievableMisrateOneSample
    rw [if_pos (by omega)]

/-- Witness for C7 at `x = [5]`, `misrate = 1/2`. -/
theorem claim_C7_witness :
    (0 : ℚ) ≤ 1 / 2 ∧ (1 : ℚ) / 2 ≤ 1 ∧
    (spread [some (5 : ℚ)] = .error ⟨.sparity, .x⟩ ∧
     spreadBounds [some (5 : ℚ)] (some (1 / 2)) 0 [] = .error ⟨.domain, .x⟩) :=
  ⟨by decide, by decide, claim_C7 5 (1 / 2) 0 [] (by decide) (by decide)⟩

/-- Counterexample refuting the `spread_bounds` half of C7 as stated: on the
valid single-element sample `[5]` with misrate `1/2`, `spread_bounds` raises
domain(x), not sparity(x). -/
theorem claim_C7_counterexample :
    spreadBounds [some (5 : ℚ)] (some (1 / 2)) 0 [] = .error ⟨.domain, .x⟩ ∧
    (Violation.mk .domain .x ≠ ⟨.sparity, .x⟩) :=
  ⟨rfl, by decide⟩

/-- Claim C8: the interval-division case analysis of `disparity_bounds` — when
the avg-spread denominator interval is strictly positive (`0 < la`), the result
is exactly the min and max of the four corner quotients (and those really do
bound `s / a` for every `s ∈ [ls, us]`, `a ∈ [la, ua]`); otherwise the
branches return `0`, `±∞` endpoints, the quotients `ls/ua` or `us/ua` against
`±∞`, or the full line, by the signs of `ls` and `us`, exactly as enumerated. -/
theorem claim_C8 (ls us la ua s a : α) (hlu : ls ≤ us) (hau : la ≤ ua)
    (hs1 : ls ≤ s) (hs2 : s ≤ us) (ha1 : la ≤ a) (ha2 : a ≤ ua) :
    (0 < la → disparityIntervalDiv ls us la ua =
      (toExt (min (min (min (ls / la) (ls / ua)) (us / la)) (us / ua)),
       toExt (max (max (max (ls / la) (ls / ua)) (us / la)) (us / ua)))) ∧
    (0 < la →
      min (min (min (ls / la) (ls / ua)) (us / la)) (us / ua) ≤ s / a ∧
      s / a ≤ max (max (max (ls / la) (ls / ua)) (us / la)) (us / ua)) ∧
    (la ≤ 0 → ua ≤ 0 → ls = 0 → us = 0 →
      disparityIntervalDiv ls us la ua = (toExt 0, toExt 0)) ∧
    (la ≤ 0 → ua ≤ 0 → ¬(ls = 0 ∧ us = 0) → 0 ≤ ls →
      disparityIntervalDiv ls us la ua = (toExt 0, ⊤)) ∧
    (la ≤ 0 → ua ≤ 0 → ls < 0 → us ≤ 0 →
      disparityIntervalDiv ls us la ua = (⊥, toExt 0)) ∧
    (la ≤ 0 → ua ≤ 0 → ls < 0 → 0 < us →
      disparityIntervalDiv ls us la ua = (⊥, ⊤)) ∧
    (la ≤ 0 → 0 < ua → 0 < ls →
      disparityIntervalDiv ls us la ua = (toExt (ls / ua), ⊤)) ∧
    (la ≤ 0 → 0 < ua → us < 0 →
      disparityIntervalDiv ls us la ua = (⊥, toExt (us / ua))) ∧
    (la ≤ 0 → 0 < ua → ls = 0 → us = 0 →
      disparityIntervalDiv ls us la ua = (toExt 0, toExt 0)) ∧
    (la ≤ 0 → 0 < ua → ls = 0 → 0 < us →
      disparityIntervalDiv ls us la ua = (toExt 0, ⊤)) ∧
    (la ≤ 0 → 0 < ua → ls < 0 → us = 0 →
      disparityIntervalDiv ls us la ua = (⊥, toExt 0)) ∧
    (la ≤ 0 → 0 < ua → ls < 0 → 0 < us →
      disparityIntervalDiv ls us la ua = (⊥, ⊤)) := by
  refine ⟨?_, ?_, ?_, ?_, ?_, ?_, ?_, ?_, ?_, ?_, ?_, ?_⟩
  · intro hla
    unfold disparityIntervalDiv
    rw [if_pos hla]
  · intro hla
    have hkl := div_mem_of_mem_pos ls hla hau ha1 ha2
    have hku := div_mem_of_mem_pos us hla hau ha1 ha2
    have ha0 : 0 < a := lt_of_lt_of_le hla ha1
    constructor
    · calc min (min (min (ls / la) (ls / ua)) (us / la)) (us / ua)
          ≤ min (ls / la) (ls / ua) :=
            le_trans (min_le_left _ _) (min_le_left _ _)
        _ ≤ ls / a := hkl.1
        _ ≤ s / a := by gcongr
    · calc s / a ≤ us / a := by gcongr
        _ ≤ max (us / la) (us / ua) := hku.2
        _ ≤ max (max (max (ls / la) (ls / ua)) (us / la)) (us / ua) := by
            apply max_le
            · exact le_trans (le_max_right _ _) (le_max_left _ _)
            · exact le_max_right _ _
  · intro h1 h2 h3 h4
    unfold disparityIntervalDiv
    rw [if_neg (not_lt.mpr h1), if_pos h2, if_pos ⟨h3, h4⟩]
  · intro h1 h2 h3 h4
    unfold disparityIntervalDiv
    rw [if_neg (not_lt.mpr h1), if_pos h2, if_neg h3, if_pos h4]
  · intro h1 h2 h3 h4
    unfold disparityIntervalDiv
    rw [if_neg (not_lt.mpr h1), if_pos h2,
      if_neg (fun hc => by rcases hc with ⟨e1, _⟩; linarith),
      if_neg (not_le.mpr h3), if_pos h4]
  · intro h1 h2 h3 h4
    unfold disparityIntervalDiv
    rw [if_neg (not_lt.mpr h1), if_pos h2,
      if_neg (fun hc => by rcases hc with ⟨e1, _⟩; linarith),
      if_neg (not_le.mpr h3), if_neg (not_le.mpr h4)]
  · intro h1 h2 h3
    unfold disparityIntervalDiv
    rw [if_neg (not_lt.mpr h1), if_neg (not_le.mpr h2), if_pos h3]
  · intro h1 h2 h3
    unfold disparityIntervalDiv
    rw [if_neg (not_lt.mpr h1), if_neg (not_le.mpr h2),
      if_neg (not_lt.mpr (by linarith)), if_pos h3]
  · intro h1 h2 h3 h4
    unfold disparityIntervalDiv
    rw [if_neg (not_lt.mpr h1), if_neg (not_le.mpr h2),
      if_neg (not_lt.mpr (le_of_eq h3)), if_neg (not_lt.mpr (ge_of_eq h4)),
      if_pos ⟨h3, h4⟩]
  · intro h1 h2 h3 h4
    unfold disparityIntervalDiv
    rw [if_neg (not_lt.mpr h1), if_neg (not_le.mpr h2),
      if_neg (not_lt.mpr (le_of_eq h3)), if_neg (not_lt.mpr (by linarith)),
      if_neg (fun hc => by rcases hc with ⟨_, e2⟩; linarith),
      if_pos ⟨h3, h4⟩]
  · intro h1 h2 h3 h4
    unfold disparityIntervalDiv
    rw [if_neg (not_lt.mpr h1), if_neg (not_le.mpr h2),
      if_neg (not_lt.mpr (by linarith)), if_neg (not_lt.mpr (ge_of_eq h4)),
      if_neg (fun hc => by rcases hc with ⟨e1, _⟩; linarith),
      if_neg (fun hc => by rcases hc with ⟨e1, _⟩; linarith),
      if_pos ⟨h3, h4⟩]
  · intro h1 h2 h3 h4
    unfold disparityIntervalDiv
    rw [if_neg (not_lt.mpr h1), if_neg (not_le.mpr h2),
      if_neg (not_lt.mpr (by linarith)), if_neg (not_lt.mpr (by linarith)),
      if_neg (fun hc => by rcases hc with ⟨e1, _⟩; linarith),
      if_neg (fun hc => by rcases hc with ⟨e1, _⟩; linarith),
      if_neg (fun hc => by rcases hc with ⟨e1, _⟩; linarith)]

/-- Witness for C8 at `[ls, us] = [-1, 2]`, `[la, ua] = [1, 3]`, `s = 0`,
`a = 2` (positive-denominator case). -/
theorem claim_C8_witness :
    ((-1 : ℚ) ≤ 2 ∧ (1 : ℚ) ≤ 3 ∧ (-1 : ℚ) ≤ 0 ∧ (0 : ℚ) ≤ 2 ∧
     (1 : ℚ) ≤ 2 ∧ (2 : ℚ) ≤ 3) ∧
    ((0 : ℚ) < 1 → disparityIntervalDiv (-1 : ℚ) 2 1 3 =
      (toExt (min (min (min ((-1 : ℚ) / 1) ((-1 : ℚ) / 3)) ((2 : ℚ) / 1)) ((2 : ℚ) / 3)),
       toExt (max (max (max ((-1 : ℚ) / 1) ((-1 : ℚ) / 3)) ((2 : ℚ) / 1)) ((2 : ℚ) / 3)))) ∧
    ((0 : ℚ) < 1 →
      min (min (min ((-1 : ℚ) / 1) ((-1 : ℚ) / 3)) ((2 : ℚ) / 1)) ((2 : ℚ) / 3) ≤ 0 / 2 ∧
      (0 : ℚ) / 2 ≤ max (max (max ((-1 : ℚ) / 1) ((-1 : ℚ) / 3)) ((2 : ℚ) / 1)) ((2 : ℚ) / 3)) := by
  have h := claim_C8 (-1 : ℚ) 2 1 3 0 2 (by decide) (by decide) (by decide) (by decide)
    (by decide) (by decide)
  exact ⟨⟨by decide, by decide, by decide, by decide, by decide, by decide⟩, h.1, h.2.1⟩

/-- Claim C9: for every valid non-tie-dominant sample, `avg_spread(x, x)`
equals `spread(x)`: the size-weighted average `(n·s + n·s) / (n + n)` collapses
to `s`. -/
theorem claim_C9 (x : List (Option α)) (hxe : x.isEmpty = false)
    (hxf : x.all Option.isSome = true) (hsp : 0 < fastSpread (vals x)) :
    avgSpread x x = spread x ∧ spread x = .ok (fastSpread (vals x)) := by
  have hspread : spread x = .ok (fastSpread (vals x)) := by
    unfold spread
    rw [checkValidity_ok hxe hxf]
    dsimp only
    rw [if_neg (not_le.mpr hsp)]
  refine ⟨?_, hspread⟩
  rw [hspread]
  unfold avgSpread
  rw [checkValidity_ok hxe hxf, checkValidity_ok hxe hxf]
  dsimp only
  rw [if_neg (not_le.mpr hsp), if_neg (not_le.mpr hsp)]
  congr 1
  have hn : (0 : α) < (x.length : α) :=
    Nat.cast_pos.mpr (length_pos_of_not_isEmpty hxe)
  field_simp
  ring

/-- Witness for C9 at `x = [0, 1]`. -/
theorem claim_C9_witness :
    ([some 0, some 1] : List (Option ℚ)).isEmpty = false ∧
    ([some 0, some 1] : List (Option ℚ)).all Option.isSome = true ∧
    0 < fastSpread (vals ([some 0, some 1] : List (Option ℚ))) ∧
    (avgSpread [some 0, some 1] [some 0, some 1] =
       spread ([some 0, some 1] : List (Option ℚ)) ∧
     spread ([some 0, some 1] : List (Option ℚ)) =
       .ok (fastSpread (vals ([some 0, some 1] : List (Option ℚ))))) :=
  ⟨by simp, by simp, by decide,
    claim_C9 [some 0, some 1] (by simp) (by simp) (by decide)⟩

/-- Claim C10: `center_bounds` on a valid single-element sample raises
domain(x) for every misrate in `[0, 1]`, even though the point estimator
`center` accepts single-element samples; the size check fires after the
validity and misrate-range checks (empty input gives validity(x), misrate 2
gives domain(misrate)) and before the minimum-achievable-misrate check (whose
threshold at `n = 1` is 1, which would reject every misrate below 1 with
domain(misrate) instead). -/
theorem claim_C10 (v : α) (mq : ℚ) (h0 : 0 ≤ mq) (h1 : mq ≤ 1) :
    centerBounds [some v] (some mq) = .error ⟨.domain, .x⟩ ∧
    center [some v] = .ok v ∧
    centerBounds ([] : List (Option α)) (some mq) = .error ⟨.validity, .x⟩ ∧
    centerBounds [some v] (some 2) = .error ⟨.domain, .misrate⟩ ∧
    minAchievableMisrateOneSample 1 = .ok 1 := by
  refine ⟨?_, ?_, ?_, ?_, ?_⟩
  · unfold centerBounds
    rw [checkValidity_ok (by simp) (by simp), getMisrate_ok h0 h1]
    dsimp only
    rw [if_pos (by simp)]
  · unfold center
    rw [checkValidity_ok (by simp) (by simp)]
    simp [vals, fastCenter, medianList, medianOfSorted, sortList, pairwiseAvgs,
      List.insertionSort]
  · unfold centerBounds
    rw [checkValidity_err (Or.inl (by simp))]
  · unfold centerBounds
    rw [checkValidity_ok (by simp) (by simp)]
    unfold getMisrate
    dsimp only
    rw [if_pos (by norm_num)]
  · have h := minOneSample_eq (n := 1) (by omega)
    simpa using h

/-- Witness for C10 at `x = [5]`, `misrate = 1/2`. -/
theorem claim_C10_witness :
    (0 : ℚ) ≤ 1 / 2 ∧ (1 : ℚ) / 2 ≤ 1 ∧
    (centerBounds [some (5 : ℚ)] (some (1 / 2)) = .error ⟨.domain, .x⟩ ∧
     center [some (5 : ℚ)] = .ok 5 ∧
     centerBounds ([] : List (Option ℚ)) (some (1 / 2)) = .error ⟨.validity, .x⟩ ∧
     centerBounds [some (5 : ℚ)] (some 2) = .error ⟨.domain, .misrate⟩ ∧
     minAchievableMisrateOneSample 1 = .ok 1) :=
  ⟨by decide, by decide, claim_C10 5 (1 / 2) (by decide) (by decide)⟩

end Claims

end Pragmastat
